import Mathlib

/-
Verification of the seq2seq-with-attention program (dynet-seq2seq-attn.py)
against its natural-language specification.

The development shallowly embeds the parts of the program that the claims
touch: the batched, masked loss computation (compute_batch_loss,
get_batch_word_ids), the model parameter shapes (build_model), the training
loop's checkpoint/early-stopping bookkeeping (train_model), greedy decoding
(predict_output_sequence), beam search (predict_beamsearch), the attention
scorer (attend) and ensemble voting (predict_with_ensemble_majority).

Conventions used throughout:
  * Tokens are an abstract type with decidable equality (concrete
    instantiations use Nat or String).
  * The neural network itself (embeddings, LSTM states, softmax scores) is
    abstracted into explicit function parameters: the per-step per-example
    negative-log-likelihood is a function of the step and batch indices, and
    a decoder's output distribution is a function of the token sequence
    generated so far.  These values are deterministic functions of exactly
    those arguments in the original program, so the abstraction is faithful.
  * Python integers and list indices become Nat, probabilities and losses
    become Rat (Real only where genuine analysis is needed, in the attention
    softmax), and fallible dictionary lookups become Option.
-/

namespace Seq2Seq

/-! ### get_batch_word_ids (source lines 605-634)

Builds, for every timestep of a padded batch, the list of word ids and the
0/1 mask (1 = real token, 0 = padding).  Sequences shorter than the longest
one in the batch are padded with the END symbol id.  `x2int` is the
vocabulary dictionary (`none` = token absent, replaced by the UNK id). -/

def get_batch_word_ids {τ : Type} (batch_seqs : List (List τ)) (x2int : τ → Option ℕ)
    (endId unkId : ℕ) : List (List ℕ) × List (List ℕ) × ℕ :=
  let max_seq_len := batch_seqs.foldl (fun m s => max m s.length) (batch_seqs.headD []).length
  let masks := (List.range max_seq_len).map (fun i =>
    batch_seqs.map (fun s => if i < s.length then 1 else 0))
  let batch_word_ids := (List.range max_seq_len).map (fun i =>
    batch_seqs.map (fun s =>
      match s.get? i with
      | none => endId
      | some tok => (x2int tok).getD unkId))
  (batch_word_ids, masks, (masks.map List.sum).sum)

/-! ### compute_batch_loss (source lines 525-601)

Only the aggregation and masking of the per-token losses is modelled; the
value produced by `dn.pickneglogsoftmax_batch` for decode step `i` and batch
element `j` is abstracted into the function `ℓ i j` (in the program it is a
deterministic function of exactly those indices once the parameters and the
batch are fixed, and it is strictly positive).  The code masks the step loss
only when the mask entry of the LAST batch element is 0 at that step
(source line 584: `if output_masks[i][-1] != 1`). -/

/-- The `for i, step_word_ids in enumerate(output_word_ids)` loop of
compute_batch_loss (source lines 568-590), iterating over the per-step masks
(output_word_ids and output_masks have the same length by construction, and
the loop body uses the index `i` only through `output_masks[i]` and the
per-step losses `ℓ i _`).  Produces the list `losses` of per-step loss
vectors. -/
def lossSteps (ℓ : ℕ → ℕ → ℚ) (batch_size : ℕ) : ℕ → List (List ℕ) → List (List ℚ)
  | _, [] => []
  | i, mask :: rest =>
    -- batch_loss = pickneglogsoftmax_batch(h, step_word_ids) (line 581)
    let step_losses := (List.range batch_size).map (fun j => ℓ i j)
    -- mask the loss if at least one sentence is shorter (lines 583-588)
    (if mask.getLast? ≠ some 1 then
      List.zipWith (fun loss m => loss * (m : ℚ)) step_losses mask
    else step_losses) :: lossSteps ℓ batch_size (i + 1) rest

def compute_batch_loss {τ : Type} (ℓ : ℕ → ℕ → ℚ) (batch_output_seqs : List (List τ))
    (y2int : τ → Option ℕ) (endId unkId : ℕ) (endTok : τ) : ℚ :=
  let batch_size := batch_output_seqs.length
  -- concatenate the end seq symbols (source line 549)
  let padded_batch_output_seqs := batch_output_seqs.map (fun s => s ++ [endTok])
  let wm := get_batch_word_ids padded_batch_output_seqs y2int endId unkId
  let losses := lossSteps ℓ batch_size 0 wm.2.1
  -- total_batch_loss = sum_batches(esum(losses)) (line 599)
  (losses.map List.sum).sum

/-- One decode step of the reference aggregation: the masked per-token losses
at step `i`, summed across the batch elements (given as the list of their
END-extended lengths, with `j` the running batch index). -/
def specStep (ℓ : ℕ → ℕ → ℚ) (i : ℕ) : ℕ → List ℕ → ℚ
  | _, [] => 0
  | j, len :: rest => (if i < len then ℓ i j else 0) + specStep ℓ i (j + 1) rest

/-- Modelled from the spec: "Loss at positions beyond an example's true length
(padding) must be zeroed via the mask before aggregation.  Total batch loss =
sum over all timesteps and batch elements of the masked per-token loss."
This is the reference aggregation the claim describes: every padding
position's loss is zeroed, not only at steps where the last batch element is
padded. -/
def spec_masked_loss {τ : Type} (ℓ : ℕ → ℕ → ℚ) (batch_output_seqs : List (List τ))
    (endTok : τ) : ℚ :=
  let padded := batch_output_seqs.map (fun s => s ++ [endTok])
  let lens := padded.map List.length
  let max_seq_len := padded.foldl (fun m s => max m s.length) (padded.headD []).length
  ((List.range max_seq_len).map (fun i => specStep ℓ i 0 lens)).sum

/-! ### build_model (source lines 226-269)

Only the shapes of the added parameters are relevant to the claims; each
field records the dimensions passed to `model.add_parameters` /
`add_lookup_parameters` / `LSTMBuilder` in source order. -/

structure ModelDims where
  input_lookup : ℕ × ℕ
  init_lookup : ℕ × ℕ
  output_lookup : ℕ × ℕ
  readout : ℕ × ℕ
  bias : ℕ
  encoder_frnn : ℕ × ℕ × ℕ
  encoder_rrnn : ℕ × ℕ × ℕ
  w_c : ℕ × ℕ
  w_a : ℕ × ℕ
  u_a : ℕ × ℕ
  v_a : ℕ × ℕ
  decoder_rnn : ℕ × ℕ × ℕ
deriving DecidableEq

def build_model (input_vocabulary output_vocabulary : List String)
    (input_dim hidden_dim layers : ℕ) : ModelDims :=
  ⟨(input_vocabulary.length, input_dim),            -- input_lookup (line 234)
   (1, 3 * hidden_dim),                             -- init_lookup (line 237)
   (output_vocabulary.length, input_dim),           -- output_lookup (line 240)
   (input_vocabulary.length, 3 * hidden_dim),       -- readout (line 243)
   input_vocabulary.length,                         -- bias (line 244)
   (layers, input_dim, hidden_dim),                 -- encoder_frnn (line 247)
   (layers, input_dim, hidden_dim),                 -- encoder_rrnn (line 248)
   (3 * hidden_dim, 3 * hidden_dim),                -- w_c (line 253)
   (hidden_dim, hidden_dim),                        -- w_a (line 256)
   (hidden_dim, 2 * hidden_dim),                    -- u_a (line 259)
   (1, hidden_dim),                                 -- v_a (line 262)
   (layers, 3 * hidden_dim + input_dim, hidden_dim)⟩ -- decoder_rnn (line 265)

/-- Dimension of the score vector `h = readout * attention_output_vector + bias`
computed at source line 578: the number of rows of the readout matrix. -/
def output_scores_dim (dims : ModelDims) : ℕ := dims.readout.1

/-! ### train_model checkpoint bookkeeping (source lines 272-471)

The loop is abstracted to the sequence of checkpoint evaluations it performs:
each checkpoint carries the epoch index `e` at which it happens and the dev
BLEU it measures.  The state mirrors the variables of train_model that the
claim is about.  Every return statement of train_model (lines 375, 441, 471)
returns `e, best_train_epoch`; `best_train_epoch` is initialised to 0 at line
311 and is never assigned again, while `best_dev_epoch` is updated at line
410 but never returned. -/

structure TrainState where
  best_dev_bleu : ℚ
  best_dev_epoch : ℕ
  best_train_epoch : ℕ
  patience : ℕ
deriving DecidableEq

def initTrainState : TrainState := ⟨-1, 0, 0, 0⟩

/-- One checkpoint evaluation (source lines 408-417). -/
def checkpoint_update (s : TrainState) (e : ℕ) (dev_bleu : ℚ) : TrainState :=
  if s.best_dev_bleu ≤ dev_bleu then
    ⟨dev_bleu, e, s.best_train_epoch, 0⟩
  else
    ⟨s.best_dev_bleu, s.best_dev_epoch, s.best_train_epoch, s.patience + 1⟩

/-- The checkpoint loop: processes checkpoints in order, stopping early when
`patience == max_patience` (source line 435); returns the epoch at which the
loop stopped together with the final state. -/
def train_loop (max_patience : ℕ) : List (ℕ × ℚ) → TrainState → ℕ → ℕ × TrainState
  | [], s, e => (e, s)
  | (ep, bleu) :: rest, s, _ =>
    let s1 := checkpoint_update s ep bleu
    if s1.patience = max_patience then (ep, s1) else train_loop max_patience rest s1 ep

/-- The pair `last_epoch, best_epoch` that train_model hands back to its
caller: every return statement returns `e, best_train_epoch`. -/
def train_model_returns (checkpoints : List (ℕ × ℚ)) (max_patience : ℕ) : ℕ × ℕ :=
  let r := train_loop max_patience checkpoints initTrainState 0
  (r.1, r.2.best_train_epoch)

/-! ### predict_output_sequence, the greedy predictor (source lines 678-738)

The model's choice of next token - `int2y[np.argmax(softmax(readout *
attend(...) + bias))]` - is a deterministic function of the input sequence
and of the tokens fed back so far, so it is abstracted into `next`; the
attention-weight matrix collected for plotting is likewise a deterministic
function of the input, abstracted into `alphasOf`.  In Python the function
returns a bare `[]` for an empty input and the 2-tuple
`(predicted_sequence[0:-1], alphas_mtx)` otherwise; the two shapes are the
two constructors of `GreedyResult`. -/

inductive GreedyResult (τ : Type) where
  | bare : List τ → GreedyResult τ
  | pair : List τ → List (List ℚ) → GreedyResult τ
deriving DecidableEq

/-- The decoding loop of predict_output_sequence (source lines 707-735):
appends the predicted token each iteration, breaks as soon as the prediction
is END, and otherwise runs for at most `max_prediction_len` iterations
(`fuel` counts the remaining iterations of `while i < max_prediction_len`). -/
def greedyGen {τ : Type} [DecidableEq τ] (next : List τ → τ) (endTok : τ) :
    ℕ → List τ → List τ
  | 0, acc => acc
  | fuel + 1, acc =>
    let t := next acc
    if t = endTok then acc ++ [t] else greedyGen next endTok fuel (acc ++ [t])

def predict_output_sequence {σ τ : Type} [DecidableEq τ] (next : List σ → List τ → τ)
    (endTok : τ) (max_prediction_len : ℕ) (alphasOf : List σ → List (List ℚ))
    (input_seq : List σ) : GreedyResult τ :=
  if input_seq.length = 0 then .bare []
  else
    -- remove the end seq symbol (source lines 737-738): strips the LAST element
    .pair (greedyGen (next input_seq) endTok max_prediction_len []).dropLast
      (alphasOf input_seq)

def GreedyResult.unpackPair {τ : Type} :
    GreedyResult τ → Option (List τ × List (List ℚ))
  | .pair s m => some (s, m)
  | .bare _ => none

/-! ### predict_beamsearch (source lines 741-835)

A hypothesis in the source is the 4-tuple (sequence, cumulative probability,
decoder state, attention vector); the decoder state and attention vector are
deterministic functions of the sequence, so here a hypothesis is the pair
(sequence, probability) and the network's output distribution for expanding a
given hypothesis sequence is the abstract `M`.  `common.argmax` is not part
of this repository's sources; `argmaxK` below models it from the spec. -/

structure BeamConfig (τ : Type) where
  /-- probs_val: the softmax output distribution for the decoder state reached
  after feeding the given hypothesis sequence (source lines 791-808). -/
  M : List τ → List ℚ
  /-- output vocabulary dictionary; none = KeyError at source line 785. -/
  y2int : τ → Option ℕ
  int2y : ℕ → τ
  beginTok : τ
  endTok : τ
  /-- beam_param, the beam width. -/
  K : ℕ
  /-- max_prediction_len. -/
  maxLen : ℕ

/-- Insert index `i` into an index list already sorted by descending value of
`xs`, keeping earlier-inserted equal-valued indices behind it. -/
def insertDesc (xs : List ℚ) (i : ℕ) : List ℕ → List ℕ
  | [] => [i]
  | j :: rest =>
    if xs.getD j 0 ≤ xs.getD i 0 then i :: j :: rest else j :: insertDesc xs i rest

/-- Indices of `xs` sorted by descending value. -/
def sortIdxDesc (xs : List ℚ) : List ℕ :=
  (List.range xs.length).foldr (insertDesc xs) []

/-- Modelled from the spec: `common.argmax` (used at source lines 812, 826 and
832 but defined in the external module common.py, which is not among the
sources) returns the indices of the `k` largest entries of `xs`; "take the
top-K scoring next tokens ... keep only the global top-K by cumulative
probability" with a deterministic tie-break. -/
def argmaxK (xs : List ℚ) (k : ℕ) : List ℕ :=
  (sortIdxDesc xs).take k

/-- Expansion of one hypothesis at beam step `i` (source lines 775-822).
Returns the pair (additions to final_states, additions to new_hypos).
A hypothesis whose sequence already ends in END is not expanded (line 780);
a hypothesis whose last symbol is missing from the output vocabulary raises
KeyError, caught and skipped (lines 784-789).  Each candidate `new_seq` that
ends in END or is produced at the last allowed step is appended to
final_states as `new_seq[1:-1]` (lines 817-820); the others become new
hypotheses (line 822). -/
def expandHypo {τ : Type} [DecidableEq τ] (cfg : BeamConfig τ) (i : ℕ)
    (hypothesis : List τ × ℚ) : List (List τ × ℚ) × List (List τ × ℚ) :=
  match hypothesis.1.getLast? with
  | none => ([], [])
  | some last_hypo_symbol =>
    if last_hypo_symbol = cfg.endTok then ([], [])
    else
      match cfg.y2int last_hypo_symbol with
      | none => ([], [])
      | some _ =>
        let probs_val := cfg.M hypothesis.1
        let n_best_indices := argmaxK probs_val cfg.K
        let cands := n_best_indices.map (fun index =>
          (hypothesis.1 ++ [cfg.int2y index], hypothesis.2 * probs_val.getD index 0))
        (cands.filterMap (fun c =>
           if c.1.getLast? = some cfg.endTok ∨ i = cfg.maxLen - 1 then
             some ((c.1.drop 1).dropLast, c.2)
           else none),
         cands.filterMap (fun c =>
           if c.1.getLast? = some cfg.endTok ∨ i = cfg.maxLen - 1 then none
           else some c))

/-- The `for hypothesis in beam[i - 1]` loop (source lines 775-822), collecting
final_states additions and new_hypos in order. -/
def beamExpandAll {τ : Type} [DecidableEq τ] (cfg : BeamConfig τ) (i : ℕ) :
    List (List τ × ℚ) → List (List τ × ℚ) × List (List τ × ℚ)
  | [] => ([], [])
  | h :: rest =>
    let e := expandHypo cfg i h
    let r := beamExpandAll cfg i rest
    (e.1 ++ r.1, e.2 ++ r.2)

/-- beam[i] = the most probable `K` expansions from all hypotheses (source
lines 824-827): `beam[i] = [new_hypos[l] for l in common.argmax(new_probs, beam_param)]`. -/
def pruneTopK {τ : Type} (cfg : BeamConfig τ) (new_hypos : List (List τ × ℚ)) :
    List (List τ × ℚ) :=
  (argmaxK (new_hypos.map Prod.snd) cfg.K).map (fun l => new_hypos.getD l ([], 0))

/-- The `while i < max_prediction_len and len(beam[i - 1]) > 0` loop (source
lines 771-828); `fuel = max_prediction_len - i` counts the remaining
iterations, `final_states` accumulates across iterations (initialised empty at
line 761). -/
def beamLoop {τ : Type} [DecidableEq τ] (cfg : BeamConfig τ) :
    ℕ → ℕ → List (List τ × ℚ) → List (List τ × ℚ) → List (List τ × ℚ)
  | 0, _, _, final_states => final_states
  | fuel + 1, i, frontier, final_states =>
    if frontier = [] then final_states
    else
      let e := beamExpandAll cfg i frontier
      beamLoop cfg fuel (i + 1) (pruneTopK cfg e.2) (final_states ++ e.1)

/-- Observer of the values assigned to `beam[i]` for `i ≥ 0` by beamLoop: the
list of frontiers produced at each executed step, in order.  The seed frontier
`beam[-1]` is not included. -/
def beamFrontiers {τ : Type} [DecidableEq τ] (cfg : BeamConfig τ) :
    ℕ → ℕ → List (List τ × ℚ) → List (List (List τ × ℚ))
  | 0, _, _ => []
  | fuel + 1, i, frontier =>
    if frontier = [] then []
    else
      let e := beamExpandAll cfg i frontier
      pruneTopK cfg e.2 :: beamFrontiers cfg fuel (i + 1) (pruneTopK cfg e.2)

/-- Result shape of predict_beamsearch: bare `[]` for an empty input (source
lines 742-743), otherwise the 2-tuple `(nbest_seqs, alphas_mtx)` (line 835). -/
inductive BeamResult (τ : Type) where
  | bare : List τ → BeamResult τ
  | pair : List (List τ × ℚ) → List (List ℚ) → BeamResult τ
deriving DecidableEq

def predict_beamsearch {σ τ : Type} [DecidableEq τ] (cfg : BeamConfig τ)
    (alphasOf : List σ → List (List ℚ)) (input_seq : List σ) : BeamResult τ :=
  if input_seq.length = 0 then .bare []
  else
    -- beam = {-1: [([BEGIN_SEQ], 1.0, s_0, params['init_lookup'][0])]} (line 767)
    let final_states := beamLoop cfg cfg.maxLen 0 [([cfg.beginTok], 1)] []
    -- get nbest results from final states found in search (lines 831-833)
    let nbest_seqs := (argmaxK (final_states.map Prod.snd) cfg.K).map
      (fun l => final_states.getD l ([], 0))
    .pair nbest_seqs (alphasOf input_seq)

def BeamResult.unpackPair {τ : Type} :
    BeamResult τ → Option (List (List τ × ℚ) × List (List ℚ))
  | .pair s m => some (s, m)
  | .bare _ => none

/-- Modelled from the spec's words for claim C4: a completed hypothesis is
"stored without its BEGIN/END sentinels (with all its other tokens
retained)". -/
def stripSentinels {τ : Type} [DecidableEq τ] (beginTok endTok : τ) (s : List τ) : List τ :=
  s.filter (fun t => ¬(t = beginTok ∨ t = endTok))

/-! ### predict_with_ensemble_majority (source lines 169-207)

Only the per-input vote is modelled: `ensemble_predictions` holds, for one
fixed test input, the token sequence predicted by each ensemble model, in
model order (in the source each is fetched from that model's prediction
dictionary as `ens[joint_index]`; the fetch is abstracted away, the votes
are handed over directly).

The Python 2 `defaultdict` counter is a hash table: its CONTENTS (the
key-to-count mapping) are well defined, but the order in which
`max(prediction_counter, key=prediction_counter.get)` iterates its keys is
the hash-slot order of the CPython 2 dictionary, an implementation detail
that is NOT the insertion order.  The embedding therefore splits the two:
`buildCounter` records the contents as an association list (its internal
first-encounter order is only a representation choice and is never handed to
`max` directly), and the iteration order is an explicit parameter
`dictOrder`, an arbitrary permutation of the counter's entries, applied
before the `max` scan.  Python's `max` keeps the earliest key of its
iteration when several have the maximal count (it replaces the current best
only on a strictly greater value). -/

/-- `prediction_counter[prediction_str] += 1` on an association list
representing the counter's contents (a fresh key is appended at the end;
the list order is a representation detail, see the section comment). -/
def bump : List (String × ℕ) → String → List (String × ℕ)
  | [], k => [(k, 1)]
  | (k0, c) :: rest, k =>
    if k0 = k then (k0, c + 1) :: rest else (k0, c) :: bump rest k

def buildCounter (keys : List String) : List (String × ℕ) :=
  keys.foldl bump []

/-- The fold inside Python's `max(..., key=...)`: keeps the current best and
replaces it only when a later entry has a strictly greater count. -/
def pyMaxGo : String × ℕ → List (String × ℕ) → String × ℕ
  | best, [] => best
  | best, p :: rest => if best.2 < p.2 then pyMaxGo p rest else pyMaxGo best rest

def pyMax : List (String × ℕ) → Option (String × ℕ)
  | [] => none
  | p :: rest => some (pyMaxGo p rest)

/-- `prediction_str = ''.join(ens[joint_index])` (source line 195). -/
def joinPred (p : List String) : String := String.join p

/-- The vote for one test input (source lines 191-205): count each model's
joined prediction string, take the most frequent string scanning the counter
in the dictionary's iteration order `dictOrder` (any permutation of the
counter's entries; CPython 2 uses hash-slot order), and return the template
stored for the winning string in `string_to_template` (the last model whose
joined prediction equals that string, since later assignments overwrite). -/
def predict_with_ensemble_majority
    (dictOrder : List (String × ℕ) → List (String × ℕ))
    (ensemble_predictions : List (List String)) : Option (List String) :=
  let counter := buildCounter (ensemble_predictions.map joinPred)
  match pyMax (dictOrder counter) with
  | none => none
  | some m => ensemble_predictions.reverse.find? (fun p => joinPred p = m.1)

/-- Modelled from CPython 2.7 dictionary semantics: iteration visits the hash
slots of the table in ascending order, so for the two keys of the tie
counterexample the order is fixed by their hashes, not by insertion order.
CPython 2.7's string hash gives hash("A") = 8320025024 (slot 0 of the
initial 8-slot table) and hash("B") = 8448025411 (slot 3), so iteration
visits "A" before "B" however the keys were inserted.  This function
realises that order: entries with key "A" first, then the rest. -/
def cpythonOrderAB (l : List (String × ℕ)) : List (String × ℕ) :=
  l.filter (fun p => p.1 = "A") ++ l.filter (fun p => ¬p.1 = "A")

/-- Number of models whose joined prediction equals `k`. -/
def keyCount : List String → String → ℕ
  | [], _ => 0
  | k0 :: rest, k => (if k0 = k then 1 else 0) + keyCount rest k

/-- Count recorded for key `k` in an association-list counter (first match). -/
def countOf : List (String × ℕ) → String → ℕ
  | [], _ => 0
  | (k0, c) :: rest, k => if k0 = k then c else countOf rest k

/-! ### attend, the attention scorer (source lines 838-861)

Vectors are lists of reals, matrices lists of rows.  `attend` computes the
additive scores `v_a . tanh(w_a*h_t + u_a*h_input)` for every encoder output
(or only the last one when the last-state flag is set), normalises them with
a softmax into the attention weights `alphas`, forms the context vector as
the weighted sum of encoder outputs, and returns
`(tanh(w_c * concat(h_t, c)), alphas)`. -/

def dot (xs ys : List ℝ) : ℝ := (List.zipWith (fun a b => a * b) xs ys).sum

def matVec (m : List (List ℝ)) (v : List ℝ) : List ℝ := m.map (fun row => dot row v)

def vadd (xs ys : List ℝ) : List ℝ := List.zipWith (fun a b => a + b) xs ys

noncomputable def softmax (xs : List ℝ) : List ℝ :=
  xs.map (fun x => Real.exp x / (xs.map Real.exp).sum)

/-- Weighted sum of the encoder output vectors by the attention weights
(`bo * alphas` at source line 855): scale each encoder vector by its weight
and add the scaled vectors component-wise. -/
def weightedSum (vs : List (List ℝ)) (ws : List ℝ) : List ℝ :=
  match List.zipWith (fun v w => v.map (fun x => w * x)) vs ws with
  | [] => []
  | v :: rest => rest.foldl vadd v

noncomputable def attend (lastState : Bool) (w_c : List (List ℝ)) (v_a : List ℝ)
    (w_a u_a : List (List ℝ)) (blstm_outputs : List (List ℝ)) (h_t : List ℝ) :
    List ℝ × List ℝ :=
  -- if arguments['--last-state']: blstm_outputs = [blstm_outputs[-1]] (lines 841-842)
  let bo := if lastState then [blstm_outputs.getLastD []] else blstm_outputs
  let w_a_h_t := matVec w_a h_t
  -- scores = [v_a * tanh(w_a_h_t + u_a * h_input) for h_input in blstm_outputs] (line 848)
  let scores := bo.map (fun h_input =>
    dot v_a ((vadd w_a_h_t (matVec u_a h_input)).map Real.tanh))
  -- alphas = softmax(concatenate(scores)) (line 851)
  let alphas := softmax scores
  let c := weightedSum bo alphas
  -- h_output = tanh(w_c * concat(h_t, c)) (line 859)
  ((matVec w_c (h_t ++ c)).map Real.tanh, alphas)

/-! ### Concrete instantiations used to evaluate the embedded code on
specific inputs.  Tokens are natural numbers; 9 plays BEGIN_SEQ, 0 plays
END_SEQ. -/

/-- A model whose decoder always assigns its whole probability mass to the
single real token 1 (which is never END): every expansion appends token 1,
so the search always runs into the maximum prediction length (2) with beam
width 1. -/
def cfgC4 : BeamConfig ℕ :=
  ⟨fun _ => [9/10],
   fun t => if t = 9 ∨ t = 1 then some 0 else none,
   fun _ => 1, 9, 0, 1, 2⟩

/-- Configuration whose output-vocabulary dictionary is empty, used for the
beam-width witness: the seeded hypothesis cannot be expanded, so the first
recorded frontier is empty. -/
def cfgC5 : BeamConfig ℕ :=
  ⟨fun _ => [], fun _ => none, id, 9, 0, 5, 3⟩

/-- A configuration whose output-vocabulary dictionary contains no symbol at
all, so every expansion raises (and catches) KeyError: the externally seeded
BEGIN symbol cannot be expanded. -/
def cfg9 : BeamConfig ℕ :=
  ⟨fun _ => [], fun _ => none, id, 9, 0, 5, 3⟩

/-- Configuration used for the empty-input shape witness. -/
def cfg10 : BeamConfig ℕ :=
  ⟨fun _ => [1/10, 9/10],
   fun t => if t = 9 ∨ t = 1 ∨ t = 0 then some t else none,
   id, 9, 0, 1, 2⟩

/-! ## Theorems -/

/-- Claim C1: "In batched loss computation, for every batch and every decode
position t, the per-token loss at positions beyond an example's true output
length (padding positions) is zeroed by the mask before aggregation, so
further padding a batch's shorter output sequences with extra masked END
tokens never changes the total batch loss."  The code masks a step's losses
only when the LAST batch element is padded at that step
(`if output_masks[i][-1] != 1`, line 584), although its own comment says
"mask the loss if at least one sentence is shorter" and output sequences are
not sorted by length (comment at line 610).  Evaluated with unit per-token
losses: for the batch whose output sequences are [[1]] and [[1, 2]] the code
sums 6 while the fully-masked aggregation of the claim sums 5 (the padding
position of the first example is counted); and appending an extra END token
(0) to the shorter sequence of the batch [[1, 2], [1]] changes the code's
total from 5 to 6. -/
theorem C1_mask_code_bug :
    (∀ ℓ : ℕ → ℕ → ℚ,
      compute_batch_loss ℓ [[1], [1, 2]] (fun t => some t) 0 99 0
        = spec_masked_loss ℓ [[1], [1, 2]] 0 + ℓ 2 0 ∧
      compute_batch_loss ℓ [[1, 2], [1, 0]] (fun t => some t) 0 99 0
        = compute_batch_loss ℓ [[1, 2], [1]] (fun t => some t) 0 99 0 + ℓ 2 1) ∧
    compute_batch_loss (fun _ _ => 1) [[1], [1, 2]] (fun t => some t) 0 99 0
      ≠ spec_masked_loss (fun _ _ => 1) [[1], [1, 2]] 0 ∧
    compute_batch_loss (fun _ _ => 1) [[1, 2], [1, 0]] (fun t => some t) 0 99 0
      ≠ compute_batch_loss (fun _ _ => 1) [[1, 2], [1]] (fun t => some t) 0 99 0 := by
  have key : ∀ ℓ : ℕ → ℕ → ℚ,
      compute_batch_loss ℓ [[1], [1, 2]] (fun t => some t) 0 99 0
        = spec_masked_loss ℓ [[1], [1, 2]] 0 + ℓ 2 0 ∧
      compute_batch_loss ℓ [[1, 2], [1, 0]] (fun t => some t) 0 99 0
        = compute_batch_loss ℓ [[1, 2], [1]] (fun t => some t) 0 99 0 + ℓ 2 1 := by
    intro ℓ
    have h3 : List.range 3 = [0, 1, 2] := by decide
    have h2 : List.range 2 = [0, 1] := by decide
    have hm22 : max (2 : ℕ) 2 = 2 := by decide
    have hm23 : max (2 : ℕ) 3 = 3 := by decide
    have hm32 : max (3 : ℕ) 3 = 3 := by decide
    have g11 : ([1, 1] : List ℕ).getLast? = some 1 := by decide
    have g01 : ([0, 1] : List ℕ).getLast? = some 1 := by decide
    have g10 : ([1, 0] : List ℕ).getLast? = some 0 := by decide
    constructor <;>
    · simp [compute_batch_loss, get_batch_word_ids, lossSteps, spec_masked_loss, specStep,
        h2, h3, hm22, hm23, hm32, g11, g01, g10]
      ring
  refine ⟨key, ?_, ?_⟩
  · rw [(key (fun _ _ => 1)).1]
    intro hcontra
    have : (1 : ℚ) = 0 := by linarith
    norm_num at this
  · rw [(key (fun _ _ => 1)).2]
    intro hcontra
    have : (1 : ℚ) = 0 := by linarith
    norm_num at this

/-- Claim C2: "For every trained model, the decoder's output projection
(readout matrix and bias) produces one unnormalized score per token of the
output vocabulary, i.e. the score vector's dimension equals the output
vocabulary's size."  The code sizes both `readout` and `bias` by the INPUT
vocabulary (lines 243-244), although the scores are consumed with
output-vocabulary ids (`pickneglogsoftmax_batch(h, step_word_ids)` at line
581 and `int2y[np.argmax(probs)]` at lines 726-727).  With a 4-token input
vocabulary and a 5-token output vocabulary the score vector has dimension 4,
not 5. -/
theorem C2_readout_code_bug :
    (build_model ["a", "UNK", "<s>", "</s>"] ["x", "y", "UNK", "<s>", "</s>"] 300 100 1).readout
      = (4, 300) ∧
    (build_model ["a", "UNK", "<s>", "</s>"] ["x", "y", "UNK", "<s>", "</s>"] 300 100 1).bias = 4 ∧
    (["x", "y", "UNK", "<s>", "</s>"] : List String).length = 5 ∧
    output_scores_dim
        (build_model ["a", "UNK", "<s>", "</s>"] ["x", "y", "UNK", "<s>", "</s>"] 300 100 1)
      ≠ (["x", "y", "UNK", "<s>", "</s>"] : List String).length := by
  refine ⟨by decide, by decide, by decide, by decide⟩

/-- Claim C6: "For every training run, train_model returns the epoch index at
which training stopped together with the epoch index of the best held-out
(dev) result; in particular, when a new best dev BLEU is recorded at some
epoch, that epoch is the one reported as best."  Every return statement of
train_model (lines 375, 441, 471) returns `best_train_epoch`, which is
initialised to 0 (line 311) and never assigned again; `best_dev_epoch`,
updated whenever a new best dev BLEU is recorded (line 410), is never
returned.  The first conjunct proves the returned best-epoch component always
equals its initial value whatever checkpoints occur; the rest evaluates a run
whose second checkpoint (at epoch 1) records a new best dev BLEU: the loop's
state says the best dev epoch is 1, but the function reports 0. -/
theorem C6_best_epoch_code_bug :
    (∀ (max_patience : ℕ) (checkpoints : List (ℕ × ℚ)) (s : TrainState) (e : ℕ),
      (train_loop max_patience checkpoints s e).2.best_train_epoch = s.best_train_epoch) ∧
    train_model_returns [(0, 1), (1, 2)] 100 = (1, 0) ∧
    (train_loop 100 [(0, 1), (1, 2)] initTrainState 0).2.best_dev_epoch = 1 := by
  refine ⟨?_, by norm_num [train_model_returns, train_loop, checkpoint_update, initTrainState],
    by norm_num [train_loop, checkpoint_update, initTrainState]⟩
  intro max_patience checkpoints
  induction checkpoints with
  | nil => intro s e; rfl
  | cons c rest ih =>
    intro s e
    obtain ⟨ep, bleu⟩ := c
    show (if (checkpoint_update s ep bleu).patience = max_patience
        then (ep, checkpoint_update s ep bleu)
        else train_loop max_patience rest (checkpoint_update s ep bleu) ep).2.best_train_epoch
        = s.best_train_epoch
    have hcu : (checkpoint_update s ep bleu).best_train_epoch = s.best_train_epoch := by
      unfold checkpoint_update; split <;> rfl
    split
    · exact hcu
    · rw [ih (checkpoint_update s ep bleu) ep, hcu]

theorem greedyGen_length_le {τ : Type} [DecidableEq τ] (next : List τ → τ) (endTok : τ) :
    ∀ (fuel : ℕ) (acc : List τ),
      (greedyGen next endTok fuel acc).length ≤ acc.length + fuel := by
  intro fuel
  induction fuel with
  | zero => intro acc; simp [greedyGen]
  | succ n ih =>
    intro acc
    simp only [greedyGen]
    split
    · simp
    · have := ih (acc ++ [next acc])
      simp only [List.length_append, List.length_cons, List.length_nil] at this
      omega

theorem greedyGen_stop {τ : Type} [DecidableEq τ] (next : List τ → τ) (endTok : τ) :
    ∀ (fuel : ℕ) (acc : List τ),
      (greedyGen next endTok fuel acc).length = acc.length + fuel ∨
        (greedyGen next endTok fuel acc).getLast? = some endTok := by
  intro fuel
  induction fuel with
  | zero => intro acc; left; simp [greedyGen]
  | succ n ih =>
    intro acc
    simp only [greedyGen]
    split
    · rename_i h
      right
      simp [h]
    · rcases ih (acc ++ [next acc]) with h | h
      · left
        simp only [List.length_append, List.length_cons, List.length_nil] at h
        omega
      · right
        exact h

theorem greedyGen_end_last {τ : Type} [DecidableEq τ] (next : List τ → τ) (endTok : τ) :
    ∀ (fuel : ℕ) (acc : List τ), endTok ∉ acc →
      endTok ∈ greedyGen next endTok fuel acc →
      (greedyGen next endTok fuel acc).getLast? = some endTok := by
  intro fuel
  induction fuel with
  | zero => intro acc hacc hmem; exact absurd hmem hacc
  | succ n ih =>
    intro acc hacc hmem
    simp only [greedyGen] at hmem ⊢
    split
    · rename_i h
      simp [h]
    · rename_i h
      refine ih (acc ++ [next acc]) ?_ ?_
      · intro hc
        rcases List.mem_append.mp hc with hc | hc
        · exact hacc hc
        · simp only [List.mem_singleton] at hc
          exact h hc.symm
      · rwa [if_neg h] at hmem

/-- Claim C3 (amended): "For every non-empty input, the Greedy Predictor
terminates when the predicted token equals END or the configured maximum
length is reached, and the final element of the generated sequence is
stripped from the returned sequence: this element is the END token whenever
END was predicted, but when the maximum length is reached without predicting
END, the stripped element is the last real predicted token."  The original
claim's "exactly the END token (never a real predicted token) is stripped" is
refuted by the counterexample: `return predicted_sequence[0:-1]` (source line
738) drops the last element unconditionally. -/
theorem C3_greedy_amended {σ τ : Type} [DecidableEq τ] (next : List σ → List τ → τ)
    (endTok : τ) (maxLen : ℕ) (alphasOf : List σ → List (List ℚ)) (input_seq : List σ)
    (h : input_seq ≠ []) :
    predict_output_sequence next endTok maxLen alphasOf input_seq =
      .pair (greedyGen (next input_seq) endTok maxLen []).dropLast (alphasOf input_seq) ∧
    (greedyGen (next input_seq) endTok maxLen []).length ≤ maxLen ∧
    ((greedyGen (next input_seq) endTok maxLen []).length = maxLen ∨
      (greedyGen (next input_seq) endTok maxLen []).getLast? = some endTok) ∧
    (endTok ∈ greedyGen (next input_seq) endTok maxLen [] →
      (greedyGen (next input_seq) endTok maxLen []).getLast? = some endTok) := by
  refine ⟨?_, ?_, ?_, ?_⟩
  · simp [predict_output_sequence, List.length_eq_zero, h]
  · have := greedyGen_length_le (next input_seq) endTok maxLen []
    simpa using this
  · have := greedyGen_stop (next input_seq) endTok maxLen []
    simpa using this
  · exact greedyGen_end_last (next input_seq) endTok maxLen [] (List.not_mem_nil endTok)

/-- Claim C3 counterexample: with a model that always predicts token 1 (never
END = 0) and maximum prediction length 2, the generated sequence is [1, 1]
and the function returns [1]: the stripped element is the real predicted
token 1, not the END token, contradicting "exactly the END token (never a
real predicted token) is stripped". -/
theorem C3_greedy_counterexample :
    predict_output_sequence (fun (_ : List ℕ) (_ : List ℕ) => 1) 0 2 (fun _ => []) [7]
      = .pair [1] [] ∧
    greedyGen (fun (_ : List ℕ) => (1 : ℕ)) 0 2 [] = [1, 1] ∧
    (greedyGen (fun (_ : List ℕ) => (1 : ℕ)) 0 2 []).getLast? = some 1 ∧
    (1 : ℕ) ≠ 0 := by
  refine ⟨by decide, by decide, by decide, by decide⟩

/-- Witness for C3: the amended theorem applied to a concrete model that
predicts token 1 and then END (= 0), with maximum length 5 and the non-empty
input [3]. -/
theorem C3_greedy_witness :
    predict_output_sequence (fun (_ : List ℕ) (acc : List ℕ) => if acc.length = 0 then 1 else 0)
        0 5 (fun _ => []) [3]
      = .pair (greedyGen ((fun (_ : List ℕ) (acc : List ℕ) => if acc.length = 0 then 1 else 0) [3])
          0 5 []).dropLast ((fun (_ : List ℕ) => ([] : List (List ℚ))) [3]) ∧
    (greedyGen ((fun (_ : List ℕ) (acc : List ℕ) => if acc.length = 0 then 1 else 0) [3])
        0 5 []).length ≤ 5 ∧
    ((greedyGen ((fun (_ : List ℕ) (acc : List ℕ) => if acc.length = 0 then 1 else 0) [3])
        0 5 []).length = 5 ∨
      (greedyGen ((fun (_ : List ℕ) (acc : List ℕ) => if acc.length = 0 then 1 else 0) [3])
        0 5 []).getLast? = some 0) ∧
    (0 ∈ greedyGen ((fun (_ : List ℕ) (acc : List ℕ) => if acc.length = 0 then 1 else 0) [3])
        0 5 [] →
      (greedyGen ((fun (_ : List ℕ) (acc : List ℕ) => if acc.length = 0 then 1 else 0) [3])
        0 5 []).getLast? = some 0) :=
  C3_greedy_amended (fun (_ : List ℕ) (acc : List ℕ) => if acc.length = 0 then 1 else 0)
    0 5 (fun _ => []) [3] (by decide)

theorem mem_insertDesc (xs : List ℚ) (i a : ℕ) :
    ∀ l : List ℕ, a ∈ insertDesc xs i l → a = i ∨ a ∈ l := by
  intro l
  induction l with
  | nil =>
    intro h
    simp only [insertDesc, List.mem_singleton] at h
    exact Or.inl h
  | cons j rest ih =>
    intro h
    simp only [insertDesc] at h
    split at h
    · rcases List.mem_cons.mp h with h | h
      · exact Or.inl h
      · exact Or.inr h
    · rcases List.mem_cons.mp h with h | h
      · exact Or.inr (List.mem_cons.mpr (Or.inl h))
      · rcases ih h with h | h
        · exact Or.inl h
        · exact Or.inr (List.mem_cons.mpr (Or.inr h))

theorem mem_foldr_insertDesc (xs : List ℚ) (a : ℕ) :
    ∀ L : List ℕ, a ∈ L.foldr (insertDesc xs) [] → a ∈ L := by
  intro L
  induction L with
  | nil => intro h; exact h
  | cons j rest ih =>
    intro h
    simp only [List.foldr_cons] at h
    rcases mem_insertDesc xs j a _ h with h | h
    · exact h ▸ List.mem_cons_self j rest
    · exact List.mem_cons.mpr (Or.inr (ih h))

theorem mem_sortIdxDesc (xs : List ℚ) (a : ℕ) (h : a ∈ sortIdxDesc xs) : a < xs.length := by
  have := mem_foldr_insertDesc xs a (List.range xs.length) h
  exact List.mem_range.mp this

theorem mem_argmaxK (xs : List ℚ) (k a : ℕ) (h : a ∈ argmaxK xs k) : a < xs.length :=
  mem_sortIdxDesc xs a (List.mem_of_mem_take h)

theorem length_insertDesc (xs : List ℚ) (i : ℕ) :
    ∀ l : List ℕ, (insertDesc xs i l).length = l.length + 1 := by
  intro l
  induction l with
  | nil => simp [insertDesc]
  | cons j rest ih =>
    simp only [insertDesc]
    split
    · simp
    · simp [ih]

theorem length_sortIdxDesc (xs : List ℚ) : (sortIdxDesc xs).length = xs.length := by
  unfold sortIdxDesc
  have : ∀ L : List ℕ, (L.foldr (insertDesc xs) []).length = L.length := by
    intro L
    induction L with
    | nil => rfl
    | cons j rest ih => simp [List.foldr_cons, length_insertDesc, ih]
  simpa using this (List.range xs.length)

theorem argmaxK_length_le (xs : List ℚ) (k : ℕ) : (argmaxK xs k).length ≤ k := by
  unfold argmaxK
  simp [List.length_take]

theorem pruneTopK_length_le {τ : Type} (cfg : BeamConfig τ) (new_hypos : List (List τ × ℚ)) :
    (pruneTopK cfg new_hypos).length ≤ cfg.K := by
  unfold pruneTopK
  simpa using argmaxK_length_le (new_hypos.map Prod.snd) cfg.K

theorem mem_pruneTopK {τ : Type} (cfg : BeamConfig τ) (new_hypos : List (List τ × ℚ))
    (p : List τ × ℚ) (h : p ∈ pruneTopK cfg new_hypos) : p ∈ new_hypos := by
  unfold pruneTopK at h
  rcases List.mem_map.mp h with ⟨l, hl, hget⟩
  have hlt : l < new_hypos.length := by
    have := mem_argmaxK (new_hypos.map Prod.snd) cfg.K l hl
    simpa using this
  rw [List.getD_eq_getElem?_getD, List.getElem?_eq_getElem hlt] at hget
  rw [← hget]
  exact List.getElem_mem hlt

theorem expandHypo_live {τ : Type} [DecidableEq τ] (cfg : BeamConfig τ) (i : ℕ)
    (hypothesis : List τ × ℚ) (last : τ) (idx : ℕ)
    (hgl : hypothesis.1.getLast? = some last) (he : last ≠ cfg.endTok)
    (hy : cfg.y2int last = some idx) :
    expandHypo cfg i hypothesis =
      (((argmaxK (cfg.M hypothesis.1) cfg.K).map (fun index =>
          (hypothesis.1 ++ [cfg.int2y index],
           hypothesis.2 * (cfg.M hypothesis.1).getD index 0))).filterMap (fun c =>
         if c.1.getLast? = some cfg.endTok ∨ i = cfg.maxLen - 1 then
           some ((c.1.drop 1).dropLast, c.2)
         else none),
       ((argmaxK (cfg.M hypothesis.1) cfg.K).map (fun index =>
          (hypothesis.1 ++ [cfg.int2y index],
           hypothesis.2 * (cfg.M hypothesis.1).getD index 0))).filterMap (fun c =>
         if c.1.getLast? = some cfg.endTok ∨ i = cfg.maxLen - 1 then none
         else some c)) := by
  simp [expandHypo, hgl, he, hy]

/-- Claim C4 (amended): "In beam search, every hypothesis whose sequence ends
in END or that reaches the maximum allowed length is moved to the
completed-hypotheses set and excluded from further expansion; the stored
sequence is the candidate sequence with its first element (the BEGIN
sentinel) and its last element removed - the removed last element is the END
token for candidates that end in END, but is a real predicted token for
candidates stored because the maximum length was reached."  The original
claim's "with all its other tokens retained" is refuted by the
counterexample: `final_states.append((new_seq[1:-1], new_prob))` (source line
820) drops the last element even when it is not END.  Conjuncts: every
completed entry is `new_seq[1:-1]` of a candidate that ends in END or was
produced at the last step; surviving hypotheses neither end in END nor are
produced at the last step; an END-terminated hypothesis is never expanded;
and the next frontier only contains surviving expansions. -/
theorem C4_beam_complete_amended {τ : Type} [DecidableEq τ] (cfg : BeamConfig τ) (i : ℕ)
    (hypothesis : List τ × ℚ) :
    (∀ f ∈ (expandHypo cfg i hypothesis).1, ∃ (s : List τ) (p : ℚ),
        f = ((s.drop 1).dropLast, p) ∧
        (s.getLast? = some cfg.endTok ∨ i = cfg.maxLen - 1)) ∧
    (∀ h2 ∈ (expandHypo cfg i hypothesis).2,
        h2.1.getLast? ≠ some cfg.endTok ∧ i ≠ cfg.maxLen - 1) ∧
    (hypothesis.1.getLast? = some cfg.endTok → expandHypo cfg i hypothesis = ([], [])) ∧
    (∀ (new_hypos : List (List τ × ℚ)) (h2 : List τ × ℚ),
        h2 ∈ pruneTopK cfg new_hypos → h2 ∈ new_hypos) := by
  refine ⟨?_, ?_, ?_, fun l p hp => mem_pruneTopK cfg l p hp⟩
  · intro f hf
    rcases hgl : hypothesis.1.getLast? with _ | last
    · simp [expandHypo, hgl] at hf
    · by_cases he : last = cfg.endTok
      · simp [expandHypo, hgl, he] at hf
      · rcases hy : cfg.y2int last with _ | idx
        · simp [expandHypo, hgl, he, hy] at hf
        · rw [expandHypo_live cfg i hypothesis last idx hgl he hy] at hf
          rw [List.mem_filterMap] at hf
          obtain ⟨c, _, hfc⟩ := hf
          by_cases hcond : c.1.getLast? = some cfg.endTok ∨ i = cfg.maxLen - 1
          · rw [if_pos hcond] at hfc
            exact ⟨c.1, c.2, (Option.some.inj hfc).symm, hcond⟩
          · rw [if_neg hcond] at hfc
            cases hfc
  · intro h2 hh2
    rcases hgl : hypothesis.1.getLast? with _ | last
    · simp [expandHypo, hgl] at hh2
    · by_cases he : last = cfg.endTok
      · simp [expandHypo, hgl, he] at hh2
      · rcases hy : cfg.y2int last with _ | idx
        · simp [expandHypo, hgl, he, hy] at hh2
        · rw [expandHypo_live cfg i hypothesis last idx hgl he hy] at hh2
          rw [List.mem_filterMap] at hh2
          obtain ⟨c, _, hfc⟩ := hh2
          by_cases hcond : c.1.getLast? = some cfg.endTok ∨ i = cfg.maxLen - 1
          · rw [if_pos hcond] at hfc
            cases hfc
          · rw [if_neg hcond] at hfc
            push_neg at hcond
            rw [← Option.some.inj hfc]
            exact hcond
  · intro hgl
    simp [expandHypo, hgl]

/-- Claim C4 counterexample: with the model of `cfgC4` (every expansion
appends the real token 1, beam width 1, maximum length 2), the candidate
[9, 1, 1] (BEGIN = 9, then two real tokens) is completed at the last step
with its final real token 1 missing: the search stores [1], although the
candidate with its sentinels stripped is [1, 1].  So a completed hypothesis
is NOT stored "with all its other tokens retained". -/
theorem C4_beam_complete_counterexample :
    (beamLoop cfgC4 2 0 [([9], 1)] []).map Prod.fst = [[1]] ∧
    ((expandHypo cfgC4 1 ([9, 1], 1)).1).map Prod.fst = [[1]] ∧
    stripSentinels 9 0 ([9, 1] ++ [1]) = [1, 1] ∧
    ([1] : List ℕ) ≠ [1, 1] := by
  refine ⟨by decide, by decide, by decide, by decide⟩

/-- Witness for C4: the amended theorem applied to `cfgC4` at step 0 with the
END-terminated hypothesis ([0], 1), showing it is excluded from expansion. -/
theorem C4_beam_complete_witness :
    expandHypo cfgC4 0 ([0], 1) = ([], []) :=
  (C4_beam_complete_amended cfgC4 0 ([0], 1)).2.2.1 (by decide)

/-- Claim C5: "In beam search with beam width K, at every intermediate
decoding step i >= 0 the frontier (the set of surviving hypotheses kept for
step i) has size at most K."  `beam[i]` is assigned only at source line 827
as `[new_hypos[l] for l in common.argmax(new_probs, beam_param)]`, which is
`pruneTopK`; its length is at most K, and every frontier recorded by a run of
the search loop obeys the bound. -/
theorem C5_beam_width {τ : Type} [DecidableEq τ] (cfg : BeamConfig τ)
    (new_hypos : List (List τ × ℚ)) (fuel i : ℕ) (frontier : List (List τ × ℚ)) :
    (pruneTopK cfg new_hypos).length ≤ cfg.K ∧
    ∀ fr ∈ beamFrontiers cfg fuel i frontier, fr.length ≤ cfg.K := by
  refine ⟨pruneTopK_length_le cfg new_hypos, ?_⟩
  induction fuel generalizing i frontier with
  | zero => intro fr hfr; simp [beamFrontiers] at hfr
  | succ n ih =>
    intro fr hfr
    simp only [beamFrontiers] at hfr
    split at hfr
    · simp at hfr
    · rcases List.mem_cons.mp hfr with h | h
      · rw [h]
        exact pruneTopK_length_le cfg _
      · exact ih _ _ fr h

/-- Witness for C5: in a run of the loop on `cfgC5` the first recorded
frontier is the empty one, and the theorem bounds its size by K. -/
theorem C5_beam_width_witness :
    ([] : List (List ℕ × ℚ)) ∈ beamFrontiers cfgC5 2 0 [([9], 1)] ∧
    ([] : List (List ℕ × ℚ)).length ≤ cfgC5.K :=
  ⟨by decide, (C5_beam_width cfgC5 [] 2 0 [([9], 1)]).2 [] (by decide)⟩

/-- Claim C9: "During beam search, if a live hypothesis's last token is absent
from the output vocabulary, only that hypothesis's expansion is skipped and
the search continues with the remaining hypotheses; the search as a whole
does not fail, and if the frontier becomes empty it terminates returning
whatever completed hypotheses exist (possibly none)."  Conjuncts: a
hypothesis whose last symbol misses the vocabulary contributes nothing (the
KeyError is caught at source lines 784-789); dropping such a hypothesis
leaves the expansion of the remaining frontier unchanged; an empty frontier
stops the loop, returning the accumulated final states unchanged; and a
search in which every expansion is skipped returns the valid empty n-best
result (cfg9 has an empty output vocabulary). -/
theorem C9_beam_skip {τ : Type} [DecidableEq τ] (cfg : BeamConfig τ) (i : ℕ)
    (hypothesis : List τ × ℚ) :
    (∀ last, hypothesis.1.getLast? = some last → last ≠ cfg.endTok →
      cfg.y2int last = none → expandHypo cfg i hypothesis = ([], [])) ∧
    (∀ rest, expandHypo cfg i hypothesis = ([], []) →
      beamExpandAll cfg i (hypothesis :: rest) = beamExpandAll cfg i rest) ∧
    (∀ (fuel i2 : ℕ) (final_states : List (List τ × ℚ)),
      beamLoop cfg fuel i2 [] final_states = final_states) ∧
    predict_beamsearch cfg9 (fun (_ : List ℕ) => ([] : List (List ℚ))) [5] = .pair [] [] := by
  refine ⟨?_, ?_, ?_, by decide⟩
  · intro last hgl hne hy
    simp [expandHypo, hgl, hne, hy]
  · intro rest he
    simp [beamExpandAll, he]
  · intro fuel i2 final_states
    cases fuel with
    | zero => rfl
    | succ n => simp [beamLoop]

/-- Witness for C9: the skip clause applied to the configuration with an
empty output vocabulary and the externally seeded hypothesis ([5], 1). -/
theorem C9_beam_skip_witness :
    ([5] : List ℕ).getLast? = some 5 ∧ (5 : ℕ) ≠ cfg9.endTok ∧ cfg9.y2int 5 = none ∧
    expandHypo cfg9 0 ([5], 1) = ([], []) :=
  ⟨by decide, by decide, by decide,
    (C9_beam_skip cfg9 0 ([5], 1)).1 5 (by decide) (by decide) (by decide)⟩

theorem sum_map_div (l : List ℝ) (c : ℝ) : (l.map (fun x => x / c)).sum = l.sum / c := by
  induction l with
  | nil => simp
  | cons a t ih => simp [ih, add_div]

theorem softmax_sum (xs : List ℝ) (h : xs ≠ []) : (softmax xs).sum = 1 := by
  unfold softmax
  have hpos : 0 < (xs.map Real.exp).sum := by
    refine List.sum_pos _ ?_ ?_
    · intro x hx
      rcases List.mem_map.mp hx with ⟨y, _, rfl⟩
      exact Real.exp_pos y
    · simpa using h
  have hmm : xs.map (fun x => Real.exp x / (xs.map Real.exp).sum)
      = (xs.map Real.exp).map (fun y => y / (xs.map Real.exp).sum) := by
    rw [List.map_map]
    rfl
  rw [hmm, sum_map_div, div_self (ne_of_gt hpos)]

/-- Claim C8: "For every encoder-output sequence of length L >= 1 and every
decoder hidden state, the Attention Scorer's normalized attention weights
(softmax over the per-position scores) sum to 1 over the encoder positions."
Proved for the idealized real-valued computation (the program computes with
floating point; the claim itself allows floating-point tolerance), covering
both the full-sequence and the last-state-only attention modes. -/
theorem C8_attention_sum (lastState : Bool) (w_c : List (List ℝ)) (v_a : List ℝ)
    (w_a u_a : List (List ℝ)) (blstm_outputs : List (List ℝ)) (h_t : List ℝ)
    (h : blstm_outputs ≠ []) :
    ((attend lastState w_c v_a w_a u_a blstm_outputs h_t).2).sum = 1 := by
  have hbo : (if lastState then [blstm_outputs.getLastD []] else blstm_outputs) ≠ [] := by
    cases lastState <;> simp [h]
  simp only [attend]
  refine softmax_sum _ ?_
  intro hmap
  exact hbo (List.map_eq_nil_iff.mp hmap)

/-- Witness for C8: a concrete one-position encoder output with concrete
weights; the attention weights sum to 1. -/
theorem C8_attention_sum_witness :
    ([[(0 : ℝ)]] : List (List ℝ)) ≠ [] ∧
    ((attend false [[1]] [1] [[1]] [[1]] [[(0 : ℝ)]] [0]).2).sum = 1 :=
  ⟨by simp, C8_attention_sum false [[1]] [1] [[1]] [[1]] [[(0 : ℝ)]] [0] (by simp)⟩

/-- Claim C10: "For the empty input sequence, both predict_output_sequence
and predict_beamsearch return a bare empty list instead of the (predicted
sequence, attention-weight matrix) pair they return for every non-empty
input, so the result's shape differs on this edge case and any caller that
unpacks the result into two values fails on an empty input."  The `bare`
constructor is Python's plain list return at source lines 682-683 and
742-743, the `pair` constructor the 2-tuple returns at lines 738 and 835;
unpacking a bare list into two values fails (`unpackPair = none`), which is
what `predicted_seq, alphas_mtx = predict_output_sequence(...)` at source
line 885 and `nbest, alphas_mtx = predict_beamsearch(...)` at line 875 would
do. -/
theorem C10_empty_input_shape {σ τ : Type} [DecidableEq τ] (next : List σ → List τ → τ)
    (endTok : τ) (maxLen : ℕ) (alphasOf : List σ → List (List ℚ)) (cfg : BeamConfig τ)
    (input_seq : List σ) :
    predict_output_sequence next endTok maxLen alphasOf ([] : List σ) = .bare [] ∧
    predict_beamsearch cfg alphasOf ([] : List σ) = .bare [] ∧
    (input_seq ≠ [] → ∃ (s : List τ) (m : List (List ℚ)),
      predict_output_sequence next endTok maxLen alphasOf input_seq = .pair s m) ∧
    (input_seq ≠ [] → ∃ (nb : List (List τ × ℚ)) (m : List (List ℚ)),
      predict_beamsearch cfg alphasOf input_seq = .pair nb m) ∧
    GreedyResult.unpackPair
      (predict_output_sequence next endTok maxLen alphasOf ([] : List σ)) = none ∧
    BeamResult.unpackPair (predict_beamsearch cfg alphasOf ([] : List σ)) = none := by
  refine ⟨?_, ?_, ?_, ?_, ?_, ?_⟩
  · simp [predict_output_sequence]
  · simp [predict_beamsearch]
  · intro hne
    refine ⟨(greedyGen (next input_seq) endTok maxLen []).dropLast, alphasOf input_seq, ?_⟩
    simp [predict_output_sequence, List.length_eq_zero, hne]
  · intro hne
    refine ⟨(argmaxK ((beamLoop cfg cfg.maxLen 0 [([cfg.beginTok], 1)] []).map Prod.snd)
        cfg.K).map (fun l => (beamLoop cfg cfg.maxLen 0 [([cfg.beginTok], 1)] []).getD l ([], 0)),
      alphasOf input_seq, ?_⟩
    simp [predict_beamsearch, List.length_eq_zero, hne]
  · simp [predict_output_sequence, GreedyResult.unpackPair]
  · simp [predict_beamsearch, BeamResult.unpackPair]

/-- Witness for C10: the shape theorem applied with a concrete model and the
non-empty input [2], yielding the pair-shaped results. -/
theorem C10_empty_input_shape_witness :
    (∃ (s : List ℕ) (m : List (List ℚ)),
      predict_output_sequence (fun (_ : List ℕ) (_ : List ℕ) => 1) 0 2 (fun _ => []) [2]
        = .pair s m) ∧
    (∃ (nb : List (List ℕ × ℚ)) (m : List (List ℚ)),
      predict_beamsearch cfg10 (fun (_ : List ℕ) => ([] : List (List ℚ))) [2] = .pair nb m) :=
  ⟨(C10_empty_input_shape (fun _ _ => 1) 0 2 (fun _ => []) cfg10 [2]).2.2.1 (by decide),
   (C10_empty_input_shape (fun _ _ => 1) 0 2 (fun _ => []) cfg10 [2]).2.2.2.1 (by decide)⟩

theorem bump_countOf (k0 k : String) :
    ∀ l : List (String × ℕ), countOf (bump l k0) k = countOf l k + (if k0 = k then 1 else 0) := by
  intro l
  induction l with
  | nil => simp [bump, countOf]
  | cons p rest ih =>
    obtain ⟨k1, c⟩ := p
    by_cases h1 : k1 = k0
    · subst h1
      by_cases h2 : k1 = k
      · simp [bump, countOf, h2]
      · simp [bump, countOf, h2]
    · by_cases h2 : k1 = k
      · subst h2
        have h0 : ¬k0 = k1 := fun hh => h1 hh.symm
        simp [bump, countOf, h1, h0]
      · simp [bump, countOf, h1, h2, ih]

theorem countOf_foldl_bump (k : String) :
    ∀ (keys : List String) (acc : List (String × ℕ)),
      countOf (keys.foldl bump acc) k = countOf acc k + keyCount keys k := by
  intro keys
  induction keys with
  | nil => intro acc; simp [keyCount]
  | cons k0 rest ih =>
    intro acc
    simp only [List.foldl_cons, keyCount]
    rw [ih (bump acc k0), bump_countOf k0 k acc]
    ring

theorem countOf_buildCounter (keys : List String) (k : String) :
    countOf (buildCounter keys) k = keyCount keys k := by
  have := countOf_foldl_bump k keys []
  simpa [buildCounter, countOf] using this

theorem bump_fst (k : String) :
    ∀ l : List (String × ℕ), (bump l k).map Prod.fst =
      if k ∈ l.map Prod.fst then l.map Prod.fst else l.map Prod.fst ++ [k] := by
  intro l
  induction l with
  | nil => simp [bump]
  | cons p rest ih =>
    obtain ⟨k1, c⟩ := p
    by_cases h1 : k1 = k
    · simp [bump, h1]
    · have hne : ¬k = k1 := fun hh => h1 hh.symm
      simp only [bump, if_neg h1, List.map_cons, ih, List.mem_cons, hne, false_or]
      split <;> simp

theorem nodup_bump (k : String) (l : List (String × ℕ))
    (h : (l.map Prod.fst).Nodup) : ((bump l k).map Prod.fst).Nodup := by
  rw [bump_fst]
  split
  · exact h
  · rename_i hmem
    rw [List.nodup_append]
    refine ⟨h, List.nodup_singleton k, ?_⟩
    intro a ha hk
    simp only [List.mem_singleton] at hk
    exact hmem (hk ▸ ha)

theorem nodup_foldl_bump :
    ∀ (keys : List String) (acc : List (String × ℕ)),
      (acc.map Prod.fst).Nodup → ((keys.foldl bump acc).map Prod.fst).Nodup := by
  intro keys
  induction keys with
  | nil => intro acc h; exact h
  | cons k0 rest ih =>
    intro acc h
    simp only [List.foldl_cons]
    exact ih (bump acc k0) (nodup_bump k0 acc h)

theorem nodup_buildCounter (keys : List String) :
    ((buildCounter keys).map Prod.fst).Nodup :=
  nodup_foldl_bump keys [] (by simp)

theorem countOf_eq_of_mem (k : String) (c : ℕ) :
    ∀ l : List (String × ℕ), (l.map Prod.fst).Nodup → (k, c) ∈ l → countOf l k = c := by
  intro l
  induction l with
  | nil => intro _ h; simp at h
  | cons p rest ih =>
    intro hnd hm
    obtain ⟨k1, c1⟩ := p
    rcases List.mem_cons.mp hm with h | h
    · have hk : k1 = k := by
        have := congrArg Prod.fst h.symm
        simpa using this
      have hc : c1 = c := by
        have := congrArg Prod.snd h.symm
        simpa using this
      simp [countOf, hk, hc]
    · have h1 : ¬k1 = k := by
        intro hh
        subst hh
        simp only [List.map_cons, List.nodup_cons] at hnd
        exact hnd.1 (List.mem_map.mpr ⟨(k1, c), h, rfl⟩)
      simp only [countOf, if_neg h1]
      refine ih ?_ h
      simp only [List.map_cons, List.nodup_cons] at hnd
      exact hnd.2

theorem countOf_cases (k : String) :
    ∀ l : List (String × ℕ), countOf l k = 0 ∨ (k, countOf l k) ∈ l := by
  intro l
  induction l with
  | nil => left; rfl
  | cons p rest ih =>
    obtain ⟨k1, c1⟩ := p
    by_cases h1 : k1 = k
    · right
      subst h1
      simp [countOf]
    · rcases ih with h | h
      · left
        simpa [countOf, h1] using h
      · right
        simp only [countOf, if_neg h1]
        exact List.mem_cons_of_mem _ h

theorem pyMaxGo_seed_le :
    ∀ (l : List (String × ℕ)) (best : String × ℕ), best.2 ≤ (pyMaxGo best l).2 := by
  intro l
  induction l with
  | nil => intro best; simp [pyMaxGo]
  | cons p rest ih =>
    intro best
    simp only [pyMaxGo]
    split
    · rename_i hlt
      exact le_trans (le_of_lt hlt) (ih p)
    · exact ih best

theorem pyMaxGo_mem_le :
    ∀ (l : List (String × ℕ)) (best q : String × ℕ), q ∈ l → q.2 ≤ (pyMaxGo best l).2 := by
  intro l
  induction l with
  | nil => intro best q hq; simp at hq
  | cons p rest ih =>
    intro best q hq
    simp only [pyMaxGo]
    rcases List.mem_cons.mp hq with h | h
    · subst h
      split
      · exact pyMaxGo_seed_le rest q
      · rename_i hnlt
        exact le_trans (le_of_not_lt hnlt) (pyMaxGo_seed_le rest best)
    · split
      · exact ih p q h
      · exact ih best q h

theorem pyMaxGo_mem :
    ∀ (l : List (String × ℕ)) (best : String × ℕ),
      pyMaxGo best l = best ∨ pyMaxGo best l ∈ l := by
  intro l
  induction l with
  | nil => intro best; left; rfl
  | cons p rest ih =>
    intro best
    simp only [pyMaxGo]
    split
    · rcases ih p with h | h
      · right
        rw [h]
        exact List.mem_cons_self p rest
      · right
        exact List.mem_cons_of_mem p h
    · rcases ih best with h | h
      · left; exact h
      · right
        exact List.mem_cons_of_mem p h

theorem pyMaxGo_first_max :
    ∀ (l : List (String × ℕ)) (best : String × ℕ),
      ∃ i : ℕ, (best :: l)[i]? = some (pyMaxGo best l) ∧
        (∀ (j : ℕ) (r : String × ℕ),
          (best :: l)[j]? = some r → r.2 ≤ (pyMaxGo best l).2) ∧
        (∀ (j : ℕ) (r : String × ℕ),
          j < i → (best :: l)[j]? = some r → r.2 < (pyMaxGo best l).2) := by
  intro l
  induction l with
  | nil =>
    intro best
    refine ⟨0, by simp [pyMaxGo], ?_, ?_⟩
    · intro j r hj
      cases j with
      | zero =>
        simp only [List.getElem?_cons_zero] at hj
        rw [← Option.some.inj hj]
        simp [pyMaxGo]
      | succ n => simp at hj
    · intro j r hjlt _
      exact absurd hjlt (Nat.not_lt_zero j)
  | cons p rest ih =>
    intro best
    simp only [pyMaxGo]
    split
    · rename_i hlt
      obtain ⟨i, hi, hall, hfirst⟩ := ih p
      have hp : p.2 ≤ (pyMaxGo p rest).2 := hall 0 p (by simp)
      refine ⟨i + 1, by simpa using hi, ?_, ?_⟩
      · intro j r hj
        cases j with
        | zero =>
          simp only [List.getElem?_cons_zero] at hj
          rw [← Option.some.inj hj]
          exact le_of_lt (lt_of_lt_of_le hlt hp)
        | succ n =>
          simp only [List.getElem?_cons_succ] at hj
          exact hall n r hj
      · intro j r hjlt hj
        cases j with
        | zero =>
          simp only [List.getElem?_cons_zero] at hj
          rw [← Option.some.inj hj]
          exact lt_of_lt_of_le hlt hp
        | succ n =>
          simp only [List.getElem?_cons_succ] at hj
          exact hfirst n r (by omega) hj
    · rename_i hnlt
      obtain ⟨i, hi, hall, hfirst⟩ := ih best
      have hb : best.2 ≤ (pyMaxGo best rest).2 := hall 0 best (by simp)
      cases i with
      | zero =>
        simp only [List.getElem?_cons_zero] at hi
        have hwb : pyMaxGo best rest = best := (Option.some.inj hi).symm
        refine ⟨0, by simp [hwb], ?_, ?_⟩
        · intro j r hj
          cases j with
          | zero =>
            simp only [List.getElem?_cons_zero] at hj
            rw [← Option.some.inj hj]
            exact hb
          | succ n =>
            cases n with
            | zero =>
              simp only [List.getElem?_cons_succ, List.getElem?_cons_zero] at hj
              rw [← Option.some.inj hj, hwb]
              exact le_of_not_lt hnlt
            | succ k =>
              simp only [List.getElem?_cons_succ] at hj
              exact hall (k + 1) r (by simpa using hj)
        · intro j r hjlt _
          exact absurd hjlt (Nat.not_lt_zero j)
      | succ k =>
        simp only [List.getElem?_cons_succ] at hi
        refine ⟨k + 2, by simpa using hi, ?_, ?_⟩
        · intro j r hj
          cases j with
          | zero =>
            simp only [List.getElem?_cons_zero] at hj
            rw [← Option.some.inj hj]
            exact hb
          | succ n =>
            cases n with
            | zero =>
              simp only [List.getElem?_cons_succ, List.getElem?_cons_zero] at hj
              rw [← Option.some.inj hj]
              exact le_trans (le_of_not_lt hnlt) hb
            | succ n2 =>
              simp only [List.getElem?_cons_succ] at hj
              exact hall (n2 + 1) r (by simpa using hj)
        · intro j r hjlt hj
          have hbstrict : best.2 < (pyMaxGo best rest).2 :=
            hfirst 0 best (Nat.succ_pos k) (by simp)
          cases j with
          | zero =>
            simp only [List.getElem?_cons_zero] at hj
            rw [← Option.some.inj hj]
            exact hbstrict
          | succ n =>
            cases n with
            | zero =>
              simp only [List.getElem?_cons_succ, List.getElem?_cons_zero] at hj
              rw [← Option.some.inj hj]
              exact lt_of_le_of_lt (le_of_not_lt hnlt) hbstrict
            | succ n2 =>
              simp only [List.getElem?_cons_succ] at hj
              exact hfirst (n2 + 1) r (by omega) (by simpa using hj)

theorem pyMax_first_max (l : List (String × ℕ)) (w : String × ℕ)
    (h : pyMax l = some w) :
    ∃ i : ℕ, l[i]? = some w ∧
      (∀ (j : ℕ) (r : String × ℕ), l[j]? = some r → r.2 ≤ w.2) ∧
      (∀ (j : ℕ) (r : String × ℕ), j < i → l[j]? = some r → r.2 < w.2) := by
  cases l with
  | nil => cases h
  | cons p rest =>
    have hw : pyMaxGo p rest = w := Option.some.inj h
    subst hw
    exact pyMaxGo_first_max rest p

/-- Claim C7 (amended): "The Ensemble Voter, for each input, performs
plurality voting over the models' predicted output strings; ties in vote
count are broken by the first maximal key in the counter dictionary's
iteration order - which for the Python 2 hash-table counter is hash-slot
order, an implementation detail that need not coincide with model order; in
particular, given 3 models predicting X, X, Y for the same input, it returns
X (a strict plurality, whatever the iteration order)."  The original claim's
"ties ... broken by the first-encountered candidate in model order" is
refuted by the counterexample.  Conjuncts: plurality holds for every
iteration order (every permutation of the counter); the X/X/Y instance
returns X for every iteration order; Python's `max` selects exactly the
first entry of its iteration attaining the maximal count (the actual
tie-break rule); and the tied vote B/A/A/B is decided purely by the
iteration order: insertion order yields B, the CPython hash order for these
keys yields A. -/
theorem C7_ensemble_majority_amended :
    (∀ (dictOrder : List (String × ℕ) → List (String × ℕ))
       (ensemble_predictions : List (List String)) (m : List String),
      (dictOrder (buildCounter (ensemble_predictions.map joinPred))).Perm
          (buildCounter (ensemble_predictions.map joinPred)) →
      predict_with_ensemble_majority dictOrder ensemble_predictions = some m →
      ∀ p ∈ ensemble_predictions,
        keyCount (ensemble_predictions.map joinPred) (joinPred p)
          ≤ keyCount (ensemble_predictions.map joinPred) (joinPred m)) ∧
    (∀ dictOrder : List (String × ℕ) → List (String × ℕ),
      (dictOrder (buildCounter ([["X"], ["X"], ["Y"]].map joinPred))).Perm
          (buildCounter ([["X"], ["X"], ["Y"]].map joinPred)) →
      predict_with_ensemble_majority dictOrder [["X"], ["X"], ["Y"]] = some ["X"]) ∧
    (∀ (l : List (String × ℕ)) (w : String × ℕ), pyMax l = some w →
      ∃ i : ℕ, l[i]? = some w ∧
        (∀ (j : ℕ) (r : String × ℕ), l[j]? = some r → r.2 ≤ w.2) ∧
        (∀ (j : ℕ) (r : String × ℕ), j < i → l[j]? = some r → r.2 < w.2)) ∧
    predict_with_ensemble_majority (fun l => l) [["B"], ["A"], ["A"], ["B"]]
      = some ["B"] ∧
    predict_with_ensemble_majority cpythonOrderAB [["B"], ["A"], ["A"], ["B"]]
      = some ["A"] := by
  refine ⟨?_, ?_, fun l w h => pyMax_first_max l w h, by decide, by decide⟩
  · intro dictOrder preds m hperm hm p hp
    rcases hc : pyMax (dictOrder (buildCounter (preds.map joinPred))) with _ | w
    · simp [predict_with_ensemble_majority, hc] at hm
    · simp only [predict_with_ensemble_majority, hc] at hm
      have hjm : joinPred m = w.1 := by
        have := List.find?_some hm
        simpa using this
      cases hcc : dictOrder (buildCounter (preds.map joinPred)) with
      | nil => rw [hcc] at hc; cases hc
      | cons q rest =>
        rw [hcc] at hc
        have hw : w = pyMaxGo q rest := (Option.some.inj hc).symm
        have hwiter : w ∈ dictOrder (buildCounter (preds.map joinPred)) := by
          rw [hcc]
          rcases pyMaxGo_mem rest q with h | h
          · rw [hw, h]
            exact List.mem_cons_self q rest
          · rw [hw]
            exact List.mem_cons_of_mem q h
        have hwmem : w ∈ buildCounter (preds.map joinPred) := hperm.mem_iff.mp hwiter
        have hmax : ∀ r ∈ buildCounter (preds.map joinPred), r.2 ≤ w.2 := by
          intro r hr
          have hr2 : r ∈ q :: rest := by
            rw [← hcc]
            exact hperm.mem_iff.mpr hr
          rcases List.mem_cons.mp hr2 with h | h
          · rw [hw, h]
            exact pyMaxGo_seed_le rest q
          · rw [hw]
            exact pyMaxGo_mem_le rest q r h
        have hkey : keyCount (preds.map joinPred) w.1 = w.2 := by
          rw [← countOf_buildCounter]
          refine countOf_eq_of_mem w.1 w.2 _ (nodup_buildCounter _) ?_
          simpa using hwmem
        have hple : keyCount (preds.map joinPred) (joinPred p) ≤ w.2 := by
          rw [← countOf_buildCounter]
          rcases countOf_cases (joinPred p) (buildCounter (preds.map joinPred)) with h | h
          · rw [h]
            exact Nat.zero_le _
          · exact hmax _ h
        rw [hjm, hkey]
        exact hple
  · intro dictOrder hperm
    have hcounter : buildCounter ([["X"], ["X"], ["Y"]].map joinPred)
        = [("X", 2), ("Y", 1)] := by decide
    rw [hcounter] at hperm
    simp only [predict_with_ensemble_majority, hcounter]
    cases hii : dictOrder [("X", 2), ("Y", 1)] with
    | nil =>
      exfalso
      have hl := hperm.length_eq
      rw [hii] at hl
      simp at hl
    | cons q rest =>
      rw [hii] at hperm
      have hle : ∀ r ∈ q :: rest, r.2 ≤ (pyMaxGo q rest).2 := by
        intro r hr
        rcases List.mem_cons.mp hr with h | h
        · rw [h]
          exact pyMaxGo_seed_le rest q
        · exact pyMaxGo_mem_le rest q r h
      have hX : (("X", 2) : String × ℕ) ∈ q :: rest :=
        hperm.mem_iff.mpr (by simp)
      have h2w : 2 ≤ (pyMaxGo q rest).2 := hle _ hX
      have hwmem : pyMaxGo q rest ∈ q :: rest := by
        rcases pyMaxGo_mem rest q with h | h
        · rw [h]
          exact List.mem_cons_self q rest
        · exact List.mem_cons_of_mem q h
      have hw2 : pyMaxGo q rest ∈ [(("X", 2) : String × ℕ), ("Y", 1)] :=
        hperm.mem_iff.mp hwmem
      have hwX : pyMaxGo q rest = ("X", 2) := by
        rcases List.mem_cons.mp hw2 with h | h
        · exact h
        · exfalso
          simp only [List.mem_singleton] at h
          rw [h] at h2w
          omega
      simp only [pyMax, hwX]
      decide

/-- Claim C7 counterexample: the votes B, A, A, B tie at two each, with B
the first-encountered candidate in model order; under the counter
dictionary's actual CPython 2.7 iteration order for these keys (hash slots
put A before B whatever the insertion order was), the voter returns the
template A, not B - so ties are NOT broken by the first-encountered
candidate in model order.  The first conjunct certifies that the modelled
iteration order is an admissible one (a permutation of the counter's
entries). -/
theorem C7_ensemble_majority_counterexample :
    (cpythonOrderAB (buildCounter ([["B"], ["A"], ["A"], ["B"]].map joinPred))).Perm
      (buildCounter ([["B"], ["A"], ["A"], ["B"]].map joinPred)) ∧
    predict_with_ensemble_majority cpythonOrderAB [["B"], ["A"], ["A"], ["B"]]
      = some ["A"] ∧
    keyCount ([["B"], ["A"], ["A"], ["B"]].map joinPred) "B"
      = keyCount ([["B"], ["A"], ["A"], ["B"]].map joinPred) "A" ∧
    ([["B"], ["A"], ["A"], ["B"]] : List (List String)).head? = some ["B"] ∧
    some (["A"] : List String) ≠ some ["B"] := by
  have h1 : buildCounter ([["B"], ["A"], ["A"], ["B"]].map joinPred)
      = [("B", 2), ("A", 2)] := by decide
  have h2 : cpythonOrderAB [(("B" : String), 2), ("A", 2)] = [("A", 2), ("B", 2)] := by
    decide
  refine ⟨?_, by decide, by decide, by decide, by decide⟩
  rw [h1, h2]
  exact List.Perm.swap ("B", 2) ("A", 2) []

/-- Witness for C7: the strict-plurality clause of the amended theorem
applied to the identity iteration order: the X/X/Y vote returns X. -/
theorem C7_ensemble_majority_witness :
    predict_with_ensemble_majority (fun l => l) [["X"], ["X"], ["Y"]] = some ["X"] :=
  C7_ensemble_majority_amended.2.1 (fun l => l) (List.Perm.refl _)

end Seq2Seq
